import Mathlib

/-!
Shallow embedding of `og_tree_to_table.py` (function `get_combinatorial_triplets`).

The Python function walks, for every leaf whose name starts with the ingroup
string, up the rooted tree: first collecting "sister" tips from sibling
subtrees (aborting when the local variable `outg_too_soon` — reassigned once
per examined sibling inside the inner `for` loop — is true after the loop),
then collecting "outgroup" tips, then emitting the cross product of both sets
as rows, optionally relabelled by deleting the first underscore of each name.
Rows are assembled into a table with two group-id columns (pandas
`groupby(...).ngroup()`, which numbers groups in ascending key order) and
sorted by (sister, outgroup, ingroup) with the row index reset to 0..n-1.

The embedding is faithful to Python local-variable semantics: `outg_too_soon`
is a single function-scoped variable, represented as an `Option Bool` threaded
through the whole computation (`none` = not yet assigned; reading it while
`none` is Python's `UnboundLocalError`, represented as `Except.error ()`).
It persists, possibly stale, across ascent steps and across ingroup leaves,
exactly as in the source.

Trees are modelled as rooted ordered trees; a node's position is a zipper
context: the list of (left-siblings, right-siblings) frames from the node up
to the root, innermost frame first.  `trace.up` exists iff the context is
nonempty; `trace.get_sisters()` is `before ++ after` of the head frame;
ascending (`trace = trace.up`) drops the head frame.

String comparison (pandas group keys and `sort_values`) is Python's
lexicographic order on code points, embedded as an executable comparison on
`List Char` so that concrete instances evaluate inside the kernel.
-/

/-- Python `s.startswith(p)`: `p` is a prefix of the code points of `s`. -/
def startswith (s p : String) : Bool := p.data.isPrefixOf s.data

/-- Strict lexicographic order on lists induced by a strict order `lt` on
elements (Python's `<` on strings/tuples, viewed on code-point lists). -/
def lexLt {α : Type} (lt : α → α → Bool) : List α → List α → Bool
  | [], [] => false
  | [], _ :: _ => true
  | _ :: _, [] => false
  | a :: as, b :: bs => if lt a b then true else if lt b a then false else lexLt lt as bs

/-- Python `<` on strings: lexicographic on code points. -/
def strLt (s t : String) : Bool := lexLt (fun a b : Char => decide (a < b)) s.data t.data

/-- Python `<` on same-length tuples of strings, as lists. -/
def keyLt (a b : List String) : Bool := lexLt strLt a b

/-- Non-strict companion of `keyLt`. -/
def keyLe (a b : List String) : Bool := ! keyLt b a

/-- `keyLe` as a decidable relation, for sorting. -/
def keyLeP (a b : List String) : Prop := keyLe a b = true

instance : DecidableRel keyLeP := fun a b => decEq (keyLe a b) true

/-- A rooted ordered tree: a node has a name and a list of children.
Leaves (tips) are the nodes with no children. -/
inductive PTree where
  | node (name : String) (children : List PTree)

mutual
/-- `get_leaf_names` of toytree: the tip names below (and including) a node,
left to right. -/
def leafNames : PTree → List String
  | .node nm [] => [nm]
  | .node _ (c :: cs) => leafNamesAux (c :: cs)

def leafNamesAux : List PTree → List String
  | [] => []
  | c :: cs => leafNames c ++ leafNamesAux cs
end

/-- One ascent frame: the siblings to the left and to the right of the
current node, in the parent's child order. -/
abbrev Frame := List PTree × List PTree

/-- A node position as a zipper context, innermost frame first; `[]` is the
root position. -/
abbrev Ctx := List Frame

mutual
/-- Enumerate the tips of a tree left to right, each with its context
(relative to an outer context `ctx`).  This is the iteration
`for node in tree[:tree.ntips]`. -/
def leavesCtx : PTree → Ctx → List (String × Ctx)
  | .node nm [], ctx => [(nm, ctx)]
  | .node _ (c :: cs), ctx => leavesCtxAux [] (c :: cs) ctx

def leavesCtxAux : List PTree → List PTree → Ctx → List (String × Ctx)
  | _, [], _ => []
  | before, c :: after, ctx =>
      leavesCtx c ((before, after) :: ctx) ++ leavesCtxAux (before ++ [c]) after ctx
end

/-- The inner `for cnode in candidates` loop of the sister search: for each
sibling subtree, reassign `outg_too_soon` to whether that subtree holds a tip
starting with `outgP`, and if not, append its tips starting with `sisP` to the
sister list.  State is (sisters, outg_too_soon). -/
def scanStep (outgP sisP : String) (sibs : List PTree) (sis : List String)
    (st : Option Bool) : List String × Option Bool :=
  sibs.foldl
    (fun acc c =>
      let tips := leafNames c
      let tooSoon := tips.any (fun t => startswith t outgP)
      (if tooSoon then acc.1 else acc.1 ++ tips.filter (fun t => startswith t sisP),
       some tooSoon))
    (sis, st)

/-- The sister-search `while trace.up:` loop.  Returns the collected sisters,
the context of `trace` when the loop exits, and the final `outg_too_soon`
state; errors when Python would read `outg_too_soon` unassigned. -/
def sisterLoop (outgP sisP : String) :
    Ctx → List String → Option Bool → Except Unit (List String × Ctx × Option Bool)
  | [], sis, st => .ok (sis, [], st)
  | (b, a) :: rest, sis, st =>
      let p := scanStep outgP sisP (b ++ a) sis st
      match p.2 with
      | none => .error ()
      | some true => .ok (p.1, (b, a) :: rest, some true)
      | some false =>
          if p.1.isEmpty then sisterLoop outgP sisP rest p.1 (some false)
          else .ok (p.1, rest, some false)

/-- The outgroup-search `while trace.up:` loop: collect, at each ascent step,
every tip of every sibling subtree starting with `outgP`; ascend; stop once
the collection is nonempty.  Returns the outgroups and the final context. -/
def ogLoop (outgP : String) : Ctx → List String → List String × Ctx
  | [], acc => (acc, [])
  | (b, a) :: rest, acc =>
      let acc' := acc ++ (b ++ a).flatMap
        (fun c => (leafNames c).filter (fun t => startswith t outgP))
      if acc'.isEmpty then ogLoop outgP rest acc' else (acc', rest)

/-- One raw output row, before grouping columns are added. -/
structure Row where
  og : String
  ingroup : String
  sister : String
  outgroup : String
deriving DecidableEq, Repr

/-- Python `s.replace("_", "", 1)` on the character list. -/
def rmFirstUnderscoreAux : List Char → List Char
  | [] => []
  | c :: cs => if c = '_' then cs else c :: rmFirstUnderscoreAux cs

/-- Python `s.replace("_", "", 1)`: delete the first underscore, if any. -/
def removeFirstUnderscore (s : String) : String :=
  ⟨rmFirstUnderscoreAux s.data⟩

/-- The row emission `for sister in sisters: for outg in outgroups:` with the
optional relabelling of the three names. -/
def mkRows (ogid nodeName : String) (relabel : Bool)
    (sisters outgroups : List String) : List Row :=
  sisters.flatMap fun s =>
    outgroups.map fun o =>
      if relabel then
        ⟨ogid, removeFirstUnderscore nodeName, removeFirstUnderscore s,
          removeFirstUnderscore o⟩
      else ⟨ogid, nodeName, s, o⟩

/-- The body of the main `for node in tree[:tree.ntips]` loop for one tip:
skip non-ingroup tips, run the sister search then the outgroup search, and
emit the cross product when both sets are nonempty.  Threads the
function-scoped `outg_too_soon` state. -/
def processLeaf (ogid ingP sisP outgP : String) (relabel : Bool)
    (st : Option Bool) (leaf : String × Ctx) :
    Except Unit (List Row × Option Bool) :=
  if ¬ startswith leaf.1 ingP then .ok ([], st)
  else
    match sisterLoop outgP sisP leaf.2 [] st with
    | .error e => .error e
    | .ok (sisters, ctx1, st1) =>
        let outgroups := (ogLoop outgP ctx1 []).1
        let rows :=
          if ¬ sisters.isEmpty ∧ ¬ outgroups.isEmpty then
            mkRows ogid leaf.1 relabel sisters outgroups
          else []
        .ok (rows, st1)

/-- Fold of `processLeaf` over all tips, accumulating the `data` list and
threading the `outg_too_soon` state across tips. -/
def collectRows (ogid ingP sisP outgP : String) (relabel : Bool) :
    List (String × Ctx) → List Row → Option Bool →
    Except Unit (List Row × Option Bool)
  | [], acc, st => .ok (acc, st)
  | leaf :: rest, acc, st =>
      match processLeaf ogid ingP sisP outgP relabel st leaf with
      | .error e => .error e
      | .ok (rows, st') =>
          collectRows ogid ingP sisP outgP relabel rest (acc ++ rows) st'

/-- The `data` list accumulated by the Python function before it is turned
into a dataframe. -/
def dataOf (ogid : String) (t : PTree) (ingP sisP outgP : String)
    (relabel : Bool) : Except Unit (List Row) :=
  match collectRows ogid ingP sisP outgP relabel (leavesCtx t []) [] none with
  | .error e => .error e
  | .ok (acc, _) => .ok acc

/-- Position of the first occurrence of `k` (the list length if absent). -/
def idxOfKey (k : List String) : List (List String) → Nat
  | [] => 0
  | a :: as => if a = k then 0 else idxOfKey k as + 1

/-- The distinct keys in ascending order (pandas' sorted group keys). -/
def sortedKeys (keys : List (List String)) : List (List String) :=
  List.insertionSort keyLeP keys.dedup

/-- pandas `groupby(keys).ngroup()` with the default ascending key sort:
the id of `k` is its position in the ascending list of distinct keys. -/
def groupId (keys : List (List String)) (k : List String) : Nat :=
  idxOfKey k (sortedKeys keys)

/-- A row with the two grouping columns attached. -/
structure GRow where
  og : String
  ingroup : String
  sister : String
  outgroup : String
  same_sister : Nat
  same_sister_and_og : Nat
deriving DecidableEq, Repr

/-- The (sister, outgroup, ingroup) key of `sort_values`. -/
def sortKey (g : GRow) : List String := [g.sister, g.outgroup, g.ingroup]

/-- Row comparison by the lexicographic sort key. -/
def gLeP (g1 g2 : GRow) : Prop := keyLeP (sortKey g1) (sortKey g2)

instance : DecidableRel gLeP := fun g1 g2 => decEq (keyLe (sortKey g1) (sortKey g2)) true

/-- Attach the two `ngroup` columns to every row of `data`. -/
def attachIds (data : List Row) : List GRow :=
  let sisKeys := data.map (fun r => [r.sister])
  let pairKeys := data.map (fun r => [r.sister, r.outgroup])
  data.map fun r =>
    ⟨r.og, r.ingroup, r.sister, r.outgroup,
      groupId sisKeys [r.sister],
      groupId pairKeys [r.sister, r.outgroup]⟩

/-- One row of the final table; `idx` is the dataframe index after
`reset_index(drop=True)`. -/
structure TRow where
  idx : Nat
  og : String
  ingroup : String
  sister : String
  outgroup : String
  same_sister : Nat
  same_sister_and_og : Nat
deriving DecidableEq, Repr

/-- Grouping, sorting and index reset: the final table built from `data`.
Within one call all rows agreeing on the sort key are identical (they share
`ogid` and the group ids are functions of the key), so any sort by the key
produces the table `sort_values` returns. -/
def buildTable (data : List Row) : List TRow :=
  ((List.insertionSort gLeP (attachIds data)).enum).map fun p =>
    ⟨p.1, p.2.og, p.2.ingroup, p.2.sister, p.2.outgroup,
      p.2.same_sister, p.2.same_sister_and_og⟩

/-- The embedded `get_combinatorial_triplets`: `.ok none` is Python's
`return None`, `.ok (some tbl)` is a returned dataframe, `.error ()` is an
uncaught Python exception (UnboundLocalError). -/
def get_combinatorial_triplets (ogid : String) (t : PTree)
    (ingP sisP outgP : String) (relabel : Bool) :
    Except Unit (Option (List TRow)) :=
  match dataOf ogid t ingP sisP outgP relabel with
  | .error e => .error e
  | .ok [] => .ok none
  | .ok (r :: rs) => .ok (some (buildTable (r :: rs)))

/-- The relabelling applied to one row when `relabel` is true: the first
underscore of each of the three tip names is removed; the orthogroup id is
untouched. -/
def relabelRow (r : Row) : Row :=
  ⟨r.og, removeFirstUnderscore r.ingroup, removeFirstUnderscore r.sister,
    removeFirstUnderscore r.outgroup⟩

/-- All tip names appearing in the sibling subtrees of a context. -/
def framesNames (ctx : Ctx) : List String :=
  ctx.flatMap (fun f => leafNamesAux (f.1 ++ f.2))

/-- A tip (leaf node). -/
def tleaf (s : String) : PTree := .node s []

/-- The tree `((A_in1,C_sis1),G_out1);` of the spec's concrete scenario. -/
def treePair : PTree :=
  .node "" [.node "" [tleaf "A_in1", tleaf "C_sis1"], tleaf "G_out1"]

/-- The three-tip caterpillar `((ingroup1, outgroup1), sister1)`. -/
def treeCater : PTree :=
  .node "" [.node "" [tleaf "ingroup1", tleaf "outgroup1"], tleaf "sister1"]

/-- A tree with an internal node having a single child: `((A_in1),C_sis1)`. -/
def treeUnary : PTree :=
  .node "" [.node "" [tleaf "A_in1"], tleaf "C_sis1"]

/-- The (sister, outgroup, ingroup) key of a table row. -/
def tabKey (r : TRow) : List String := [r.sister, r.outgroup, r.ingroup]

/-- Table rows ordered by the (sister, outgroup, ingroup) key. -/
def tabLeP (r1 r2 : TRow) : Prop := keyLeP (tabKey r1) (tabKey r2)

/-! ## Order properties of the embedded Python string comparison -/

theorem lexLt_irrefl {α : Type} (lt : α → α → Bool) (h : ∀ a, lt a a = false) :
    ∀ l, lexLt lt l l = false
  | [] => rfl
  | a :: as => by simp [lexLt, h a, lexLt_irrefl lt h as]

theorem lexLt_trans {α : Type} {lt : α → α → Bool}
    (htr : ∀ a b c, lt a b = true → lt b c = true → lt a c = true)
    (hconn : ∀ a b, lt a b = false → lt b a = false → a = b) :
    ∀ l1 l2 l3, lexLt lt l1 l2 = true → lexLt lt l2 l3 = true → lexLt lt l1 l3 = true
  | [], [], _, h1, _ => by simp [lexLt] at h1
  | [], _ :: _, [], _, h2 => by simp [lexLt] at h2
  | [], _ :: _, _ :: _, _, _ => rfl
  | _ :: _, [], _, h1, _ => by simp [lexLt] at h1
  | _ :: _, _ :: _, [], _, h2 => by simp [lexLt] at h2
  | a :: as, b :: bs, c :: cs, h1, h2 => by
    simp only [lexLt] at h1 h2 ⊢
    cases hab : lt a b with
    | true =>
        cases hbc : lt b c with
        | true => simp [htr a b c hab hbc]
        | false =>
            cases hcb : lt c b with
            | true => simp [hbc, hcb] at h2
            | false =>
                have : b = c := hconn b c hbc hcb
                subst this
                simp [hab]
    | false =>
        cases hba : lt b a with
        | true => simp [hab, hba] at h1
        | false =>
            have : a = b := hconn a b hab hba
            subst this
            simp only [hab, if_neg, Bool.false_eq_true, if_false] at h1 ⊢
            cases hbc : lt a c with
            | true => simp
            | false =>
                cases hcb : lt c a with
                | true => simp [hbc, hcb] at h2
                | false =>
                    simp only [hbc, hcb, Bool.false_eq_true, if_false] at h2 ⊢
                    exact lexLt_trans htr hconn as bs cs h1 h2

theorem lexLt_conn {α : Type} {lt : α → α → Bool}
    (hconn : ∀ a b, lt a b = false → lt b a = false → a = b) :
    ∀ l1 l2, lexLt lt l1 l2 = false → lexLt lt l2 l1 = false → l1 = l2
  | [], [], _, _ => rfl
  | [], _ :: _, h1, _ => by simp [lexLt] at h1
  | _ :: _, [], _, h2 => by simp [lexLt] at h2
  | a :: as, b :: bs, h1, h2 => by
    simp only [lexLt] at h1 h2
    cases hab : lt a b with
    | true => simp [hab] at h1
    | false =>
        cases hba : lt b a with
        | true => simp [hab, hba] at h2  -- lexLt (b::bs) (a::as) reduces to true
        | false =>
            have : a = b := hconn a b hab hba
            subst this
            simp only [hab, Bool.false_eq_true, if_false] at h1 h2
            rw [lexLt_conn hconn as bs h1 h2]

theorem charLtB_irrefl (a : Char) : decide (a < a) = false := by simp

theorem charLtB_trans (a b c : Char) (h1 : decide (a < b) = true)
    (h2 : decide (b < c) = true) : decide (a < c) = true := by
  simp only [decide_eq_true_eq] at *
  exact lt_trans h1 h2

theorem charLtB_conn (a b : Char) (h1 : decide (a < b) = false)
    (h2 : decide (b < a) = false) : a = b := by
  simp only [decide_eq_false_iff_not] at *
  exact le_antisymm (le_of_not_lt h2) (le_of_not_lt h1)

theorem strLt_irrefl (s : String) : strLt s s = false :=
  lexLt_irrefl _ charLtB_irrefl s.data

theorem strLt_trans {s t u : String} (h1 : strLt s t = true)
    (h2 : strLt t u = true) : strLt s u = true :=
  lexLt_trans charLtB_trans charLtB_conn s.data t.data u.data h1 h2

theorem strLt_conn {s t : String} (h1 : strLt s t = false)
    (h2 : strLt t s = false) : s = t := by
  have h := lexLt_conn charLtB_conn s.data t.data h1 h2
  cases s with
  | mk d1 => cases t with
    | mk d2 => exact congrArg String.mk h

theorem keyLt_irrefl (k : List String) : keyLt k k = false :=
  lexLt_irrefl _ strLt_irrefl k

theorem keyLt_trans {a b c : List String} (h1 : keyLt a b = true)
    (h2 : keyLt b c = true) : keyLt a c = true :=
  @lexLt_trans String strLt (fun _ _ _ hx hy => strLt_trans hx hy)
    (fun _ _ hx hy => strLt_conn hx hy) a b c h1 h2

theorem keyLt_conn {a b : List String} (h1 : keyLt a b = false)
    (h2 : keyLt b a = false) : a = b :=
  @lexLt_conn String strLt (fun _ _ hx hy => strLt_conn hx hy) a b h1 h2

theorem keyLt_asymm {a b : List String} (h : keyLt a b = true) : keyLt b a = false := by
  cases hba : keyLt b a with
  | false => rfl
  | true =>
      have hcontra := keyLt_trans h hba
      rw [keyLt_irrefl a] at hcontra
      exact hcontra.symm

theorem keyLeP_iff {a b : List String} : keyLeP a b ↔ keyLt b a = false := by
  unfold keyLeP keyLe
  cases keyLt b a <;> simp

theorem keyLeP_total (a b : List String) : keyLeP a b ∨ keyLeP b a := by
  rw [keyLeP_iff, keyLeP_iff]
  cases hba : keyLt b a with
  | false => exact Or.inl rfl
  | true => exact Or.inr (keyLt_asymm hba)

theorem keyLeP_trans {a b c : List String} (h1 : keyLeP a b) (h2 : keyLeP b c) :
    keyLeP a c := by
  rw [keyLeP_iff] at h1 h2 ⊢
  cases hca : keyLt c a with
  | false => rfl
  | true =>
      cases hab : keyLt a b with
      | true =>
          have hcb := keyLt_trans hca hab
          rw [hcb] at h2
          exact h2
      | false =>
          have hba : a = b := keyLt_conn hab h1
          subst hba
          rw [hca] at h2
          exact h2

theorem keyLeP_antisymm {a b : List String} (h1 : keyLeP a b) (h2 : keyLeP b a) :
    a = b := by
  rw [keyLeP_iff] at h1 h2
  exact keyLt_conn h2 h1

theorem keyLt_of_ne_of_le {a b : List String} (hne : a ≠ b) (hle : keyLeP a b) :
    keyLt a b = true := by
  rw [keyLeP_iff] at hle
  cases hab : keyLt a b with
  | true => rfl
  | false => exact absurd (keyLt_conn hab hle) hne

theorem keyLeP_of_lt {a b : List String} (h : keyLt a b = true) : keyLeP a b := by
  rw [keyLeP_iff]
  exact keyLt_asymm h

/-! ## Properties of `idxOfKey`, `sortedKeys` and `groupId` -/

theorem idxOfKey_lt_length {k : List String} :
    ∀ {l : List (List String)}, k ∈ l → idxOfKey k l < l.length
  | a :: as, h => by
      by_cases hak : a = k
      · simp [idxOfKey, hak]
      · have hmem : k ∈ as := by
          rcases List.mem_cons.mp h with h' | h'
          · exact absurd h'.symm hak
          · exact h'
        simpa [idxOfKey, hak] using idxOfKey_lt_length hmem

theorem get_idxOfKey {k : List String} :
    ∀ {l : List (List String)} (h : k ∈ l),
      l.get ⟨idxOfKey k l, idxOfKey_lt_length h⟩ = k
  | a :: as, h => by
      by_cases hak : a = k
      · simp [idxOfKey, hak]
      · have hmem : k ∈ as := by
          rcases List.mem_cons.mp h with h' | h'
          · exact absurd h'.symm hak
          · exact h'
        simpa [idxOfKey, hak] using get_idxOfKey hmem

theorem idxOfKey_get :
    ∀ {l : List (List String)}, l.Nodup → ∀ (i : Nat) (hi : i < l.length),
      idxOfKey (l.get ⟨i, hi⟩) l = i
  | a :: as, hnd, 0, _ => by simp [idxOfKey]
  | a :: as, hnd, i + 1, hi => by
      have hmem : as.get ⟨i, Nat.lt_of_succ_lt_succ hi⟩ ∈ as :=
        List.get_mem as i (Nat.lt_of_succ_lt_succ hi)
      have hne : a ≠ as.get ⟨i, Nat.lt_of_succ_lt_succ hi⟩ :=
        fun h => (List.nodup_cons.mp hnd).1 (h ▸ hmem)
      simp only [List.get_cons_succ, idxOfKey, if_neg hne]
      rw [idxOfKey_get (List.nodup_cons.mp hnd).2 i (Nat.lt_of_succ_lt_succ hi)]

theorem sortedKeys_sorted (keys : List (List String)) :
    (sortedKeys keys).Sorted keyLeP := by
  haveI : IsTotal (List String) keyLeP := ⟨keyLeP_total⟩
  haveI : IsTrans (List String) keyLeP := ⟨fun _ _ _ => keyLeP_trans⟩
  exact List.sorted_insertionSort keyLeP keys.dedup

theorem sortedKeys_nodup (keys : List (List String)) : (sortedKeys keys).Nodup :=
  (List.perm_insertionSort keyLeP keys.dedup).nodup_iff.mpr keys.nodup_dedup

theorem mem_sortedKeys {keys : List (List String)} {k : List String} :
    k ∈ sortedKeys keys ↔ k ∈ keys :=
  (List.mem_insertionSort keyLeP).trans (List.mem_dedup)

theorem length_sortedKeys (keys : List (List String)) :
    (sortedKeys keys).length = keys.dedup.length :=
  List.length_insertionSort keyLeP keys.dedup

theorem groupId_lt {keys : List (List String)} {k : List String} (h : k ∈ keys) :
    groupId keys k < keys.dedup.length := by
  rw [← length_sortedKeys]
  exact idxOfKey_lt_length (mem_sortedKeys.mpr h)

theorem groupId_inj {keys : List (List String)} {k1 k2 : List String}
    (h1 : k1 ∈ keys) (h2 : k2 ∈ keys) :
    groupId keys k1 = groupId keys k2 ↔ k1 = k2 := by
  constructor
  · intro h
    have e1 := get_idxOfKey (mem_sortedKeys.mpr h1)
    have e2 := get_idxOfKey (mem_sortedKeys.mpr h2)
    rw [← e1, ← e2]
    congr 1
    exact Fin.ext h
  · intro h; rw [h]

theorem groupId_mono {keys : List (List String)} {k1 k2 : List String}
    (h1 : k1 ∈ keys) (h2 : k2 ∈ keys) (hlt : keyLt k1 k2 = true) :
    groupId keys k1 < groupId keys k2 := by
  have hm1 := mem_sortedKeys.mpr h1
  have hm2 := mem_sortedKeys.mpr h2
  have e1 := get_idxOfKey hm1
  have e2 := get_idxOfKey hm2
  have hne : groupId keys k1 ≠ groupId keys k2 := by
    intro h
    rw [(groupId_inj h1 h2).mp h] at hlt
    rw [keyLt_irrefl] at hlt
    exact Bool.noConfusion hlt
  rcases Nat.lt_or_ge (groupId keys k1) (groupId keys k2) with h | h
  · exact h
  · exfalso
    have hlt2 : groupId keys k2 < groupId keys k1 :=
      Nat.lt_of_le_of_ne h (fun he => hne he.symm)
    have hrel := (sortedKeys_sorted keys).rel_get_of_lt
      (a := ⟨idxOfKey k2 (sortedKeys keys), idxOfKey_lt_length hm2⟩)
      (b := ⟨idxOfKey k1 (sortedKeys keys), idxOfKey_lt_length hm1⟩) hlt2
    rw [e1, e2] at hrel
    rw [keyLeP_iff] at hrel
    rw [hrel] at hlt
    exact Bool.noConfusion hlt

theorem groupId_surj {keys : List (List String)} {i : Nat}
    (hi : i < keys.dedup.length) : ∃ k ∈ keys, groupId keys k = i := by
  have hi' : i < (sortedKeys keys).length := by rw [length_sortedKeys]; exact hi
  refine ⟨(sortedKeys keys).get ⟨i, hi'⟩, ?_, ?_⟩
  · exact mem_sortedKeys.mp (List.get_mem _ _ hi')
  · exact idxOfKey_get (sortedKeys_nodup keys) i hi'

/-! ## Claim theorems: concrete evaluations -/

/-- C2: for the tree `((A_in1,C_sis1),G_out1);` with ingroup `A_in`, sister
`C_sis`, outgroup `G_out` and relabel disabled, the extraction returns a table
with exactly one row, whose ingroup name is `A_in1`, sister name `C_sis1` and
outgroup name `G_out1`. -/
theorem C2_concrete_pair_tree_single_row :
    get_combinatorial_triplets "OG" treePair "A_in" "C_sis" "G_out" false =
      .ok (some [⟨0, "OG", "A_in1", "C_sis1", "G_out1", 0, 0⟩]) := rfl

/-- C8 (failing input): on the tree `((A_in1),C_sis1);`, whose internal node
has a single child, the first ascent step for `A_in1` examines no sibling, so
the code reads the never-assigned local `outg_too_soon` and raises
(UnboundLocalError) instead of returning a table or `None`. -/
theorem C8_single_child_node_raises :
    get_combinatorial_triplets "OG" treeUnary "A_in" "C_sis" "G_out" false =
      .error () := rfl

/-- C1 (counterexample): at an ascent step whose examined siblings are
`[G_out1, B1]`, the first sibling subtree contains an outgroup-prefix leaf,
yet the sister search does not stop at this step: the loop keeps ascending
(only the last examined sibling decides the break) and returns a sister found
one level higher, with the final context `[]` rather than the step's context. -/
theorem C1_counterexample :
    (tleaf "G_out1" ∈ ([] ++ [tleaf "G_out1", tleaf "B1"] : List PTree) ∧
      (leafNames (tleaf "G_out1")).any (fun x => startswith x "G_out") = true) ∧
    sisterLoop "G_out" "C_sis"
        [([], [tleaf "G_out1", tleaf "B1"]), ([], [tleaf "C_sis1"])] [] none =
      .ok (["C_sis1"], [], some false) ∧
    ¬ ∃ s st1, sisterLoop "G_out" "C_sis"
        [([], [tleaf "G_out1", tleaf "B1"]), ([], [tleaf "C_sis1"])] [] none =
      .ok (s, [([], [tleaf "G_out1", tleaf "B1"]), ([], [tleaf "C_sis1"])], st1) := by
  refine ⟨⟨List.mem_cons_self _ _, rfl⟩, rfl, ?_⟩
  rintro ⟨s, st1, h⟩
  rw [show sisterLoop "G_out" "C_sis"
        [([], [tleaf "G_out1", tleaf "B1"]), ([], [tleaf "C_sis1"])] [] none =
      .ok (["C_sis1"], [], some false) from rfl] at h
  have h2 := congrArg (fun p => p.2.1) (Except.ok.inj h)
  simp at h2

/-- C7 (counterexample): with an empty ingroup string every tip name matches
(`"".startswith` is always true), so the extraction on
`((A_in1,C_sis1),G_out1);` returns a table, not the absent result. -/
theorem C7_counterexample_empty_ingroup_gives_table :
    get_combinatorial_triplets "OG" treePair "" "C_sis" "G_out" false ≠
      .ok none ∧
    get_combinatorial_triplets "OG" treePair "" "C_sis" "G_out" false =
      .ok (some [⟨0, "OG", "A_in1", "C_sis1", "G_out1", 0, 0⟩]) := by
  refine ⟨?_, rfl⟩
  intro h
  rw [show get_combinatorial_triplets "OG" treePair "" "C_sis" "G_out" false =
      .ok (some [⟨0, "OG", "A_in1", "C_sis1", "G_out1", 0, 0⟩]) from rfl] at h
  exact Option.noConfusion (Except.ok.inj h)

/-! ## Structure of the sister-search loop -/

theorem scanStep_snd_last (outgP sisP : String) (cs : List PTree) (c : PTree)
    (sis : List String) (st : Option Bool) :
    (scanStep outgP sisP (cs ++ [c]) sis st).2 =
      some ((leafNames c).any (fun x => startswith x outgP)) := by
  unfold scanStep
  rw [List.foldl_append]
  rfl

theorem sisterLoop_ctx_suffix {outgP sisP : String} :
    ∀ {ctx : Ctx} {sis : List String} {st : Option Bool} {s : List String}
      {c1 : Ctx} {s1 : Option Bool},
      sisterLoop outgP sisP ctx sis st = .ok (s, c1, s1) → c1 <:+ ctx
  | [], sis, st, s, c1, s1, h => by
      simp only [sisterLoop, Except.ok.injEq, Prod.mk.injEq] at h
      rw [← h.2.1]
  | (b, a) :: rest, sis, st, s, c1, s1, h => by
      cases hp2 : (scanStep outgP sisP (b ++ a) sis st).2 with
      | none =>
          rw [sisterLoop, hp2] at h
          exact Except.noConfusion h
      | some tooSoon =>
          rw [sisterLoop, hp2] at h
          cases tooSoon with
          | true =>
              have h2 : (Except.ok ((scanStep outgP sisP (b ++ a) sis st).1,
                  (b, a) :: rest, some true) : Except Unit _) = .ok (s, c1, s1) := h
              simp only [Except.ok.injEq, Prod.mk.injEq] at h2
              rw [← h2.2.1]
          | false =>
              have h2 : (if (scanStep outgP sisP (b ++ a) sis st).1.isEmpty then
                    sisterLoop outgP sisP rest
                      (scanStep outgP sisP (b ++ a) sis st).1 (some false)
                  else Except.ok ((scanStep outgP sisP (b ++ a) sis st).1,
                    rest, some false)) = .ok (s, c1, s1) := h
              by_cases hemp : (scanStep outgP sisP (b ++ a) sis st).1.isEmpty
              · rw [if_pos hemp] at h2
                exact (sisterLoop_ctx_suffix h2).trans (List.suffix_cons _ _)
              · rw [if_neg hemp] at h2
                simp only [Except.ok.injEq, Prod.mk.injEq] at h2
                rw [← h2.2.1]
                exact List.suffix_cons _ _

/-- C1 (amended): at every ascent step of the sister search, the
outgroup-too-soon condition is decided by the LAST sibling subtree examined at
that step.  If that last subtree contains an outgroup-prefix leaf, the search
stops ascending there (keeping the sisters collected at that step); if it does
not, the search never exits at that step's context, even when an earlier
sibling subtree contains an outgroup-prefix leaf. -/
theorem C1_amended_last_sibling_decides
    (outgP sisP : String) (b a : List PTree) (rest : Ctx) (sis : List String)
    (st : Option Bool) (cs : List PTree) (c : PTree)
    (hba : b ++ a = cs ++ [c]) :
    ((leafNames c).any (fun x => startswith x outgP) = true →
      sisterLoop outgP sisP ((b, a) :: rest) sis st =
        .ok ((scanStep outgP sisP (b ++ a) sis st).1, (b, a) :: rest, some true)) ∧
    ((leafNames c).any (fun x => startswith x outgP) = false →
      ∀ s st1, sisterLoop outgP sisP ((b, a) :: rest) sis st ≠
        .ok (s, (b, a) :: rest, st1)) := by
  have hp2 : (scanStep outgP sisP (b ++ a) sis st).2 =
      some ((leafNames c).any (fun x => startswith x outgP)) := by
    rw [hba]; exact scanStep_snd_last outgP sisP cs c sis st
  constructor
  · intro htrue
    rw [htrue] at hp2
    rw [sisterLoop, hp2]
  · intro hfalse s st1 heq
    rw [hfalse] at hp2
    rw [sisterLoop, hp2] at heq
    have h2 : (if (scanStep outgP sisP (b ++ a) sis st).1.isEmpty then
          sisterLoop outgP sisP rest
            (scanStep outgP sisP (b ++ a) sis st).1 (some false)
        else Except.ok ((scanStep outgP sisP (b ++ a) sis st).1,
          rest, some false)) = .ok (s, (b, a) :: rest, st1) := heq
    by_cases hemp : (scanStep outgP sisP (b ++ a) sis st).1.isEmpty
    · rw [if_pos hemp] at h2
      have hlen := (sisterLoop_ctx_suffix h2).length_le
      simp at hlen
    · rw [if_neg hemp] at h2
      simp at h2

/-- Witness for C1 (amended), at a step whose siblings are `[B1, G_out1]`:
the last sibling contains an outgroup-prefix tip, so the search stops at this
step with state `some true`. -/
theorem C1_amended_witness :
    sisterLoop "G_out" "C_sis" [([], [tleaf "B1", tleaf "G_out1"])] [] none =
      .ok ((scanStep "G_out" "C_sis" ([] ++ [tleaf "B1", tleaf "G_out1"]) [] none).1,
        [([], [tleaf "B1", tleaf "G_out1"])], some true) :=
  (C1_amended_last_sibling_decides "G_out" "C_sis" [] [tleaf "B1", tleaf "G_out1"]
    [] [] none [tleaf "B1"] (tleaf "G_out1") rfl).1 rfl

/-- C3: a row is emitted for an ingroup tip only if both the sister set and
the outgroup set produced by the two searches are non-empty; in particular on
the caterpillar `((ingroup1, outgroup1), sister1)` the outgroup is sibling to
the ingroup tip before any sister, so no row at all is emitted (absent). -/
theorem C3_row_requires_sister_and_outgroup :
    (∀ (ogid ingP sisP outgP : String) (relabel : Bool) (st : Option Bool)
        (leaf : String × Ctx) (rows : List Row) (st' : Option Bool),
      processLeaf ogid ingP sisP outgP relabel st leaf = .ok (rows, st') →
      rows ≠ [] →
      ∃ sisters ctx1 st1,
        sisterLoop outgP sisP leaf.2 [] st = .ok (sisters, ctx1, st1) ∧
        sisters ≠ [] ∧ (ogLoop outgP ctx1 []).1 ≠ []) ∧
    get_combinatorial_triplets "OG" treeCater "ingroup" "sister" "outgroup" false =
      .ok none := by
  constructor
  · intro ogid ingP sisP outgP relabel st leaf rows st' h hne
    cases hc : startswith leaf.1 ingP with
    | false =>
        unfold processLeaf at h
        rw [hc] at h
        simp at h
        exact (hne h.1).elim
    | true =>
        unfold processLeaf at h
        rw [hc, if_neg (by simp)] at h
        cases hsl : sisterLoop outgP sisP leaf.2 [] st with
        | error e =>
            rw [hsl] at h
            simp at h
        | ok trip =>
            obtain ⟨sis, c1, s1⟩ := trip
            rw [hsl] at h
            simp only [Except.ok.injEq, Prod.mk.injEq] at h
            by_cases hcond : ¬ sis.isEmpty ∧ ¬ (ogLoop outgP c1 []).1.isEmpty
            · refine ⟨sis, c1, s1, rfl, ?_, ?_⟩
              · intro hnil; rw [hnil] at hcond; simp at hcond
              · intro hnil; rw [hnil] at hcond; simp at hcond
            · rw [if_neg hcond] at h
              exact (hne h.1.symm).elim
  · rfl

/-- Witness for C3, at the ingroup tip of `((A_in1,C_sis1),G_out1);`: its
emitted row comes with nonempty sister and outgroup sets. -/
theorem C3_witness :
    ∃ sisters ctx1 st1,
      sisterLoop "G_out" "C_sis"
          [([], [tleaf "C_sis1"]), ([], [tleaf "G_out1"])] [] none =
        .ok (sisters, ctx1, st1) ∧
      sisters ≠ [] ∧ (ogLoop "G_out" ctx1 []).1 ≠ [] :=
  C3_row_requires_sister_and_outgroup.1 "OG" "A_in" "C_sis" "G_out" false none
    ("A_in1", [([], [tleaf "C_sis1"]), ([], [tleaf "G_out1"])])
    [⟨"OG", "A_in1", "C_sis1", "G_out1"⟩] (some false) rfl (by decide)

/-! ## Membership invariants of the searches -/

theorem leafNamesAux_append : ∀ (l1 l2 : List PTree),
    leafNamesAux (l1 ++ l2) = leafNamesAux l1 ++ leafNamesAux l2
  | [], l2 => rfl
  | c :: cs, l2 => by
      show leafNames c ++ leafNamesAux (cs ++ l2) =
        (leafNames c ++ leafNamesAux cs) ++ leafNamesAux l2
      rw [leafNamesAux_append cs l2, List.append_assoc]

theorem mem_leafNamesAux_of_mem : ∀ {sibs : List PTree} {c : PTree},
    c ∈ sibs → ∀ {x}, x ∈ leafNames c → x ∈ leafNamesAux sibs
  | d :: rest, c, hc, x, hx => by
      simp only [leafNamesAux]
      rcases List.mem_cons.mp hc with h | h
      · subst h; exact List.mem_append_left _ hx
      · exact List.mem_append_right _ (mem_leafNamesAux_of_mem h hx)

theorem framesNames_cons (b a : List PTree) (rest : Ctx) :
    framesNames ((b, a) :: rest) = leafNamesAux (b ++ a) ++ framesNames rest := rfl

theorem framesNames_suffix_sub {c1 ctx : Ctx} (h : c1 <:+ ctx) {x : String}
    (hx : x ∈ framesNames c1) : x ∈ framesNames ctx := by
  obtain ⟨t, rfl⟩ := h
  unfold framesNames
  rw [List.flatMap_append]
  exact List.mem_append_right _ hx

theorem scanStep_cons (outgP sisP : String) (c : PTree) (rest : List PTree)
    (sis : List String) (st : Option Bool) :
    scanStep outgP sisP (c :: rest) sis st =
      scanStep outgP sisP rest
        (if (leafNames c).any (fun t => startswith t outgP) then sis
         else sis ++ (leafNames c).filter (fun t => startswith t sisP))
        (some ((leafNames c).any (fun t => startswith t outgP))) := rfl

theorem scanStep_fst_mem {outgP sisP : String} :
    ∀ (sibs : List PTree) (sis : List String) (st : Option Bool) {x : String},
      x ∈ (scanStep outgP sisP sibs sis st).1 →
      x ∈ sis ∨ (startswith x sisP = true ∧ x ∈ leafNamesAux sibs)
  | [], sis, st, x, h => Or.inl h
  | c :: rest, sis, st, x, h => by
      rw [scanStep_cons] at h
      rcases scanStep_fst_mem rest _ _ h with h' | h'
      · by_cases ht : (leafNames c).any (fun t => startswith t outgP)
        · rw [if_pos ht] at h'
          exact Or.inl h'
        · rw [if_neg ht] at h'
          rcases List.mem_append.mp h' with h'' | h''
          · exact Or.inl h''
          · refine Or.inr ⟨(List.mem_filter.mp h'').2, ?_⟩
            exact mem_leafNamesAux_of_mem (List.mem_cons_self c rest)
              (List.mem_filter.mp h'').1
      · refine Or.inr ⟨h'.1, ?_⟩
        simp only [leafNamesAux]
        exact List.mem_append_right _ h'.2

theorem sisterLoop_fst_mem {outgP sisP : String} :
    ∀ {ctx : Ctx} {sis : List String} {st : Option Bool} {s : List String}
      {c1 : Ctx} {s1 : Option Bool},
      sisterLoop outgP sisP ctx sis st = .ok (s, c1, s1) → ∀ {x}, x ∈ s →
      x ∈ sis ∨ (startswith x sisP = true ∧ x ∈ framesNames ctx)
  | [], sis, st, s, c1, s1, h, x, hx => by
      simp only [sisterLoop, Except.ok.injEq, Prod.mk.injEq] at h
      rw [← h.1] at hx
      exact Or.inl hx
  | (b, a) :: rest, sis, st, s, c1, s1, h, x, hx => by
      cases hp2 : (scanStep outgP sisP (b ++ a) sis st).2 with
      | none =>
          rw [sisterLoop, hp2] at h
          exact Except.noConfusion h
      | some tooSoon =>
          rw [sisterLoop, hp2] at h
          cases tooSoon with
          | true =>
              have h2 : (Except.ok ((scanStep outgP sisP (b ++ a) sis st).1,
                  (b, a) :: rest, some true) : Except Unit _) = .ok (s, c1, s1) := h
              simp only [Except.ok.injEq, Prod.mk.injEq] at h2
              rw [← h2.1] at hx
              rcases scanStep_fst_mem (b ++ a) sis st hx with h' | h'
              · exact Or.inl h'
              · exact Or.inr ⟨h'.1, framesNames_cons b a rest ▸
                  List.mem_append_left _ h'.2⟩
          | false =>
              have h2 : (if (scanStep outgP sisP (b ++ a) sis st).1.isEmpty then
                    sisterLoop outgP sisP rest
                      (scanStep outgP sisP (b ++ a) sis st).1 (some false)
                  else Except.ok ((scanStep outgP sisP (b ++ a) sis st).1,
                    rest, some false)) = .ok (s, c1, s1) := h
              by_cases hemp : (scanStep outgP sisP (b ++ a) sis st).1.isEmpty
              · rw [if_pos hemp] at h2
                rcases sisterLoop_fst_mem h2 hx with h' | h'
                · rcases scanStep_fst_mem (b ++ a) sis st h' with h'' | h''
                  · exact Or.inl h''
                  · exact Or.inr ⟨h''.1, framesNames_cons b a rest ▸
                      List.mem_append_left _ h''.2⟩
                · exact Or.inr ⟨h'.1, framesNames_cons b a rest ▸
                    List.mem_append_right _ h'.2⟩
              · rw [if_neg hemp] at h2
                simp only [Except.ok.injEq, Prod.mk.injEq] at h2
                rw [← h2.1] at hx
                rcases scanStep_fst_mem (b ++ a) sis st hx with h' | h'
                · exact Or.inl h'
                · exact Or.inr ⟨h'.1, framesNames_cons b a rest ▸
                    List.mem_append_left _ h'.2⟩

theorem ogLoop_fst_mem {outgP : String} :
    ∀ {ctx : Ctx} {acc : List String} {x : String},
      x ∈ (ogLoop outgP ctx acc).1 →
      x ∈ acc ∨ (startswith x outgP = true ∧ x ∈ framesNames ctx)
  | [], acc, x, h => Or.inl h
  | (b, a) :: rest, acc, x, h => by
      rw [ogLoop] at h
      by_cases hemp : (acc ++ (b ++ a).flatMap
          (fun c => (leafNames c).filter (fun t => startswith t outgP))).isEmpty
      · rw [if_pos hemp] at h
        rcases ogLoop_fst_mem h with h' | h'
        · rcases List.mem_append.mp h' with h'' | h''
          · exact Or.inl h''
          · obtain ⟨c, hc, hx⟩ := List.mem_flatMap.mp h''
            refine Or.inr ⟨(List.mem_filter.mp hx).2, framesNames_cons b a rest ▸
              List.mem_append_left _
                (mem_leafNamesAux_of_mem hc (List.mem_filter.mp hx).1)⟩
        · exact Or.inr ⟨h'.1, framesNames_cons b a rest ▸
            List.mem_append_right _ h'.2⟩
      · rw [if_neg hemp] at h
        rcases List.mem_append.mp h with h'' | h''
        · exact Or.inl h''
        · obtain ⟨c, hc, hx⟩ := List.mem_flatMap.mp h''
          refine Or.inr ⟨(List.mem_filter.mp hx).2, framesNames_cons b a rest ▸
            List.mem_append_left _
              (mem_leafNamesAux_of_mem hc (List.mem_filter.mp hx).1)⟩

theorem mkRows_mem {ogid nm : String} {relabel : Bool}
    {sis og : List String} {r : Row} (h : r ∈ mkRows ogid nm relabel sis og) :
    ∃ s ∈ sis, ∃ o ∈ og,
      r = if relabel then
            ⟨ogid, removeFirstUnderscore nm, removeFirstUnderscore s,
              removeFirstUnderscore o⟩
          else ⟨ogid, nm, s, o⟩ := by
  obtain ⟨s, hs, hr⟩ := List.mem_flatMap.mp h
  obtain ⟨o, ho, hr'⟩ := List.mem_map.mp hr
  exact ⟨s, hs, o, ho, hr'.symm⟩

theorem processLeaf_row_mem {ogid ingP sisP outgP : String} {relabel : Bool}
    {st : Option Bool} {leaf : String × Ctx} {rows : List Row}
    {st' : Option Bool}
    (h : processLeaf ogid ingP sisP outgP relabel st leaf = .ok (rows, st'))
    {r : Row} (hr : r ∈ rows) :
    startswith leaf.1 ingP = true ∧
    ∃ s o, startswith s sisP = true ∧ s ∈ framesNames leaf.2 ∧
      startswith o outgP = true ∧ o ∈ framesNames leaf.2 ∧
      r = (if relabel then
            ⟨ogid, removeFirstUnderscore leaf.1, removeFirstUnderscore s,
              removeFirstUnderscore o⟩
          else ⟨ogid, leaf.1, s, o⟩ : Row) := by
  cases hc : startswith leaf.1 ingP with
  | false =>
      unfold processLeaf at h
      rw [hc] at h
      simp at h
      rw [h.1] at hr
      exact absurd hr (List.not_mem_nil r)
  | true =>
      refine ⟨rfl, ?_⟩
      unfold processLeaf at h
      rw [hc, if_neg (by simp)] at h
      cases hsl : sisterLoop outgP sisP leaf.2 [] st with
      | error e => rw [hsl] at h; simp at h
      | ok trip =>
          obtain ⟨sis, c1, s1⟩ := trip
          rw [hsl] at h
          simp only [Except.ok.injEq, Prod.mk.injEq] at h
          by_cases hcond : ¬ sis.isEmpty ∧ ¬ (ogLoop outgP c1 []).1.isEmpty
          · rw [if_pos hcond] at h
            rw [← h.1] at hr
            obtain ⟨s, hs, o, ho, hro⟩ := mkRows_mem hr
            have hsmem : startswith s sisP = true ∧ s ∈ framesNames leaf.2 := by
              rcases sisterLoop_fst_mem hsl hs with h' | h'
              · exact absurd h' (List.not_mem_nil s)
              · exact h'
            have homem : startswith o outgP = true ∧ o ∈ framesNames leaf.2 := by
              rcases ogLoop_fst_mem ho with h' | h'
              · exact absurd h' (List.not_mem_nil o)
              · exact ⟨h'.1, framesNames_suffix_sub (sisterLoop_ctx_suffix hsl) h'.2⟩
            exact ⟨s, o, hsmem.1, hsmem.2, homem.1, homem.2, hro⟩
          · rw [if_neg hcond] at h
            rw [← h.1] at hr
            exact absurd hr (List.not_mem_nil r)

theorem collectRows_row_mem {ogid ingP sisP outgP : String} {relabel : Bool} :
    ∀ {leaves : List (String × Ctx)} {acc : List Row} {st : Option Bool}
      {out : List Row} {st' : Option Bool},
      collectRows ogid ingP sisP outgP relabel leaves acc st = .ok (out, st') →
      ∀ {r : Row}, r ∈ out →
      r ∈ acc ∨ ∃ leaf ∈ leaves, ∃ rows st0 st1,
        processLeaf ogid ingP sisP outgP relabel st0 leaf = .ok (rows, st1) ∧
        r ∈ rows
  | [], acc, st, out, st', h, r, hr => by
      simp only [collectRows, Except.ok.injEq, Prod.mk.injEq] at h
      rw [← h.1] at hr
      exact Or.inl hr
  | leaf :: rest, acc, st, out, st', h, r, hr => by
      cases hpl : processLeaf ogid ingP sisP outgP relabel st leaf with
      | error e => rw [collectRows, hpl] at h; exact Except.noConfusion h
      | ok p =>
          obtain ⟨rows, st2⟩ := p
          rw [collectRows, hpl] at h
          rcases collectRows_row_mem h hr with h' | h'
          · rcases List.mem_append.mp h' with h'' | h''
            · exact Or.inl h''
            · exact Or.inr ⟨leaf, List.mem_cons_self _ _, rows, st, st2, hpl, h''⟩
          · obtain ⟨lf, hlf, hrest⟩ := h'
            exact Or.inr ⟨lf, List.mem_cons_of_mem _ hlf, hrest⟩

theorem dataOf_mem {ogid : String} {t : PTree} {ingP sisP outgP : String}
    {relabel : Bool} {data : List Row}
    (h : dataOf ogid t ingP sisP outgP relabel = .ok data)
    {r : Row} (hr : r ∈ data) :
    ∃ leaf ∈ leavesCtx t [], ∃ rows st0 st1,
      processLeaf ogid ingP sisP outgP relabel st0 leaf = .ok (rows, st1) ∧
      r ∈ rows := by
  unfold dataOf at h
  cases hcr : collectRows ogid ingP sisP outgP relabel (leavesCtx t []) [] none with
  | error e => rw [hcr] at h; exact Except.noConfusion h
  | ok p =>
      obtain ⟨acc, stf⟩ := p
      rw [hcr] at h
      have hd : acc = data := Except.ok.inj h
      rw [hd] at hcr
      rcases collectRows_row_mem hcr hr with h' | h'
      · exact absurd h' (List.not_mem_nil r)
      · exact h'

/-! ## Structure of the final table -/

theorem mem_attachIds {data : List Row} {g : GRow} (h : g ∈ attachIds data) :
    ∃ r0 ∈ data,
      g = ⟨r0.og, r0.ingroup, r0.sister, r0.outgroup,
        groupId (data.map (fun r => [r.sister])) [r0.sister],
        groupId (data.map (fun r => [r.sister, r.outgroup]))
          [r0.sister, r0.outgroup]⟩ := by
  unfold attachIds at h
  obtain ⟨r0, hr0, hg⟩ := List.mem_map.mp h
  exact ⟨r0, hr0, hg.symm⟩

theorem mem_buildTable {data : List Row} {r : TRow} (h : r ∈ buildTable data) :
    ∃ g ∈ attachIds data,
      r.og = g.og ∧ r.ingroup = g.ingroup ∧ r.sister = g.sister ∧
      r.outgroup = g.outgroup ∧ r.same_sister = g.same_sister ∧
      r.same_sister_and_og = g.same_sister_and_og := by
  unfold buildTable at h
  obtain ⟨p, hp, hr⟩ := List.mem_map.mp h
  have hsnd : p.2 ∈ List.insertionSort gLeP (attachIds data) := by
    have : p.2 ∈ (List.insertionSort gLeP (attachIds data)).enum.map Prod.snd :=
      List.mem_map_of_mem Prod.snd hp
    rwa [List.enum_map_snd] at this
  refine ⟨p.2, (List.mem_insertionSort gLeP).mp hsnd, ?_⟩
  rw [← hr]
  exact ⟨rfl, rfl, rfl, rfl, rfl, rfl⟩

theorem get_ok_table {ogid : String} {t : PTree} {ingP sisP outgP : String}
    {relabel : Bool} {tbl : List TRow}
    (h : get_combinatorial_triplets ogid t ingP sisP outgP relabel =
      .ok (some tbl)) :
    ∃ data, dataOf ogid t ingP sisP outgP relabel = .ok data ∧ data ≠ [] ∧
      tbl = buildTable data := by
  unfold get_combinatorial_triplets at h
  cases hd : dataOf ogid t ingP sisP outgP relabel with
  | error e => rw [hd] at h; exact Except.noConfusion h
  | ok data =>
      rw [hd] at h
      cases data with
      | nil => simp at h
      | cons d ds =>
          refine ⟨d :: ds, rfl, List.cons_ne_nil d ds, ?_⟩
          have := Except.ok.inj h
          exact (Option.some.inj this).symm

/-- C9: every row of a returned table (relabel disabled, i.e. pre-relabel
names) has an ingroup name starting with the ingroup string, a sister name
starting with the sister string and an outgroup name starting with the
outgroup string. -/
theorem C9_row_names_have_role_prefixes
    (ogid : String) (t : PTree) (ingP sisP outgP : String) (tbl : List TRow)
    (h : get_combinatorial_triplets ogid t ingP sisP outgP false =
      .ok (some tbl)) :
    ∀ r ∈ tbl, startswith r.ingroup ingP = true ∧
      startswith r.sister sisP = true ∧ startswith r.outgroup outgP = true := by
  intro r hr
  obtain ⟨data, hdata, -, htbl⟩ := get_ok_table h
  rw [htbl] at hr
  obtain ⟨g, hg, -, hri, hrs, hro, -, -⟩ := mem_buildTable hr
  obtain ⟨r0, hr0, hgr0⟩ := mem_attachIds hg
  obtain ⟨leaf, -, rows, st0, st1, hpl, hrow⟩ := dataOf_mem hdata hr0
  obtain ⟨hsw, s, o, hssw, -, hosw, -, hreq⟩ := processLeaf_row_mem hpl hrow
  rw [if_neg (by simp)] at hreq
  rw [hri, hrs, hro, hgr0, hreq]
  exact ⟨hsw, hssw, hosw⟩

/-- Witness for C9 at the single row of the table for `((A_in1,C_sis1),G_out1);`. -/
theorem C9_witness :
    startswith "A_in1" "A_in" = true ∧ startswith "C_sis1" "C_sis" = true ∧
      startswith "G_out1" "G_out" = true :=
  C9_row_names_have_role_prefixes "OG" treePair "A_in" "C_sis" "G_out"
    [⟨0, "OG", "A_in1", "C_sis1", "G_out1", 0, 0⟩] rfl
    ⟨0, "OG", "A_in1", "C_sis1", "G_out1", 0, 0⟩ (List.mem_singleton.mpr rfl)

/-! ## Leaves of the tree enumeration -/

mutual
theorem leavesCtx_names : ∀ (t : PTree) (ctx0 : Ctx) {nm : String} {ctx : Ctx},
    (nm, ctx) ∈ leavesCtx t ctx0 →
    nm ∈ leafNames t ∧
      ∀ x ∈ framesNames ctx, x ∈ leafNames t ∨ x ∈ framesNames ctx0
  | .node nm0 [], ctx0, nm, ctx, h => by
      simp only [leavesCtx, List.mem_singleton, Prod.mk.injEq] at h
      obtain ⟨rfl, rfl⟩ := h
      exact ⟨List.mem_singleton.mpr rfl, fun x hx => Or.inr hx⟩
  | .node nm0 (c :: cs), ctx0, nm, ctx, h => by
      have h' := leavesCtxAux_names [] (c :: cs) ctx0 h
      refine ⟨h'.1, fun x hx => ?_⟩
      rcases h'.2 x hx with h'' | h'' | h''
      · exact absurd h'' (List.not_mem_nil x)
      · exact Or.inl h''
      · exact Or.inr h''

theorem leavesCtxAux_names : ∀ (before rest : List PTree) (ctx0 : Ctx)
    {nm : String} {ctx : Ctx},
    (nm, ctx) ∈ leavesCtxAux before rest ctx0 →
    nm ∈ leafNamesAux rest ∧
      ∀ x ∈ framesNames ctx,
        x ∈ leafNamesAux before ∨ x ∈ leafNamesAux rest ∨ x ∈ framesNames ctx0
  | before, [], ctx0, nm, ctx, h => absurd h (List.not_mem_nil _)
  | before, c :: after, ctx0, nm, ctx, h => by
      rw [leavesCtxAux] at h
      rcases List.mem_append.mp h with h' | h'
      · have hres := leavesCtx_names c ((before, after) :: ctx0) h'
        refine ⟨by
          show nm ∈ leafNames c ++ leafNamesAux after
          exact List.mem_append_left _ hres.1, fun x hx => ?_⟩
        rcases hres.2 x hx with h'' | h''
        · refine Or.inr (Or.inl ?_)
          show x ∈ leafNames c ++ leafNamesAux after
          exact List.mem_append_left _ h''
        · rw [framesNames_cons, leafNamesAux_append] at h''
          rcases List.mem_append.mp h'' with h3 | h3
          · rcases List.mem_append.mp h3 with h4 | h4
            · exact Or.inl h4
            · refine Or.inr (Or.inl ?_)
              show x ∈ leafNames c ++ leafNamesAux after
              exact List.mem_append_right _ h4
          · exact Or.inr (Or.inr h3)
      · have hres := leavesCtxAux_names (before ++ [c]) after ctx0 h'
        refine ⟨by
          show nm ∈ leafNames c ++ leafNamesAux after
          exact List.mem_append_right _ hres.1, fun x hx => ?_⟩
        rcases hres.2 x hx with h'' | h'' | h''
        · rw [leafNamesAux_append] at h''
          rcases List.mem_append.mp h'' with h3 | h3
          · exact Or.inl h3
          · refine Or.inr (Or.inl ?_)
            show x ∈ leafNames c ++ leafNamesAux after
            refine List.mem_append_left _ ?_
            simpa [leafNamesAux] using h3
        · refine Or.inr (Or.inl ?_)
          show x ∈ leafNames c ++ leafNamesAux after
          exact List.mem_append_right _ h''
        · exact Or.inr (Or.inr h'')
end

theorem processLeaf_skip {ogid ingP sisP outgP : String} {relabel : Bool}
    {st : Option Bool} {leaf : String × Ctx}
    (h : startswith leaf.1 ingP = false) :
    processLeaf ogid ingP sisP outgP relabel st leaf = .ok ([], st) := by
  unfold processLeaf
  rw [h, if_pos (by simp)]

theorem collectRows_skip {ogid ingP sisP outgP : String} {relabel : Bool} :
    ∀ {leaves : List (String × Ctx)} {acc : List Row} {st : Option Bool},
      (∀ lf ∈ leaves, startswith lf.1 ingP = false) →
      collectRows ogid ingP sisP outgP relabel leaves acc st = .ok (acc, st)
  | [], acc, st, _ => rfl
  | leaf :: rest, acc, st, h => by
      rw [collectRows, processLeaf_skip (h leaf (List.mem_cons_self _ _))]
      show collectRows ogid ingP sisP outgP relabel rest (acc ++ []) st =
        .ok (acc, st)
      rw [List.append_nil]
      exact collectRows_skip (fun lf hlf => h lf (List.mem_cons_of_mem _ hlf))

/-- C7 (amended): when no tip name of the tree starts with the ingroup
string, the extraction returns the absent result without raising; prefixes
themselves are never rejected — an empty ingroup or sister string matches
every name (Python `startswith`), so an empty prefix can yield a table
instead of absent. -/
theorem C7_amended_no_ingroup_match_absent
    (ogid : String) (t : PTree) (ingP sisP outgP : String) (relabel : Bool)
    (h : ∀ nm ∈ leafNames t, startswith nm ingP = false) :
    get_combinatorial_triplets ogid t ingP sisP outgP relabel = .ok none := by
  have hskip : ∀ lf ∈ leavesCtx t [], startswith lf.1 ingP = false := by
    intro lf hlf
    exact h lf.1 (leavesCtx_names t [] (show (lf.1, lf.2) ∈ _ from hlf)).1
  unfold get_combinatorial_triplets dataOf
  rw [collectRows_skip hskip]

/-- Witness for C7 (amended): no tip of `((A_in1,C_sis1),G_out1);` starts
with `ZZZ`, so the result is absent. -/
theorem C7_amended_witness :
    get_combinatorial_triplets "OG" treePair "ZZZ" "C_sis" "G_out" false =
      .ok none :=
  C7_amended_no_ingroup_match_absent "OG" treePair "ZZZ" "C_sis" "G_out" false
    (by decide)

/-! ## Relabelling -/

theorem mkRows_relabel (ogid nm : String) (og : List String) :
    ∀ (sis : List String),
      mkRows ogid nm true sis og = (mkRows ogid nm false sis og).map relabelRow
  | [] => rfl
  | s :: ss => by
      have h1 : mkRows ogid nm true (s :: ss) og =
          (og.map fun o => (⟨ogid, removeFirstUnderscore nm,
            removeFirstUnderscore s, removeFirstUnderscore o⟩ : Row)) ++
            mkRows ogid nm true ss og := rfl
      have h2 : mkRows ogid nm false (s :: ss) og =
          (og.map fun o => (⟨ogid, nm, s, o⟩ : Row)) ++
            mkRows ogid nm false ss og := rfl
      rw [h1, h2, List.map_append, List.map_map, mkRows_relabel ogid nm og ss]
      rfl

theorem processLeaf_relabel (ogid ingP sisP outgP : String) (st : Option Bool)
    (leaf : String × Ctx) :
    processLeaf ogid ingP sisP outgP true st leaf =
      (processLeaf ogid ingP sisP outgP false st leaf).map
        (fun pr => (pr.1.map relabelRow, pr.2)) := by
  unfold processLeaf
  cases hc : startswith leaf.1 ingP with
  | false => rfl
  | true =>
      rw [if_neg (by simp), if_neg (by simp)]
      cases hsl : sisterLoop outgP sisP leaf.2 [] st with
      | error e => rfl
      | ok trip =>
          obtain ⟨sis, c1, s1⟩ := trip
          show Except.ok (ite _ (mkRows ogid leaf.1 true sis _) [], s1) = _
          by_cases hcond : ¬ sis.isEmpty ∧ ¬ (ogLoop outgP c1 []).1.isEmpty
          · rw [if_pos hcond]
            show _ = Except.map _ (.ok (ite _ (mkRows ogid leaf.1 false sis _) [], s1))
            rw [if_pos hcond]
            rw [mkRows_relabel]
            rfl
          · rw [if_neg hcond]
            show _ = Except.map _ (.ok (ite _ (mkRows ogid leaf.1 false sis _) [], s1))
            rw [if_neg hcond]
            rfl

theorem collectRows_relabel (ogid ingP sisP outgP : String) :
    ∀ (leaves : List (String × Ctx)) (acc : List Row) (st : Option Bool),
      collectRows ogid ingP sisP outgP true leaves (acc.map relabelRow) st =
        (collectRows ogid ingP sisP outgP false leaves acc st).map
          (fun pr => (pr.1.map relabelRow, pr.2))
  | [], acc, st => rfl
  | leaf :: rest, acc, st => by
      rw [collectRows, collectRows, processLeaf_relabel]
      cases hpl : processLeaf ogid ingP sisP outgP false st leaf with
      | error e => rfl
      | ok p =>
          obtain ⟨rows, st2⟩ := p
          show collectRows ogid ingP sisP outgP true rest
              (acc.map relabelRow ++ rows.map relabelRow) st2 = _
          rw [← List.map_append]
          exact collectRows_relabel ogid ingP sisP outgP rest (acc ++ rows) st2

/-- C6: relabelling.  (1) With relabel enabled, the emitted rows are exactly
the rows emitted with relabel disabled with the first underscore removed from
each of the three names (the orthogroup id untouched); the searches themselves
are unaffected, and the input tree — a read-only value in this embedding — is
never changed.  (2) With relabel disabled every emitted name is literally one
of the tree's tip names.  (3) Concretely, `A_in_gene1` relabels to
`Ain_gene1`. -/
theorem C6_relabel_removes_first_underscore
    (ogid : String) (t : PTree) (ingP sisP outgP : String) :
    (dataOf ogid t ingP sisP outgP true =
      (dataOf ogid t ingP sisP outgP false).map (List.map relabelRow)) ∧
    (∀ data, dataOf ogid t ingP sisP outgP false = .ok data →
      ∀ r ∈ data, r.ingroup ∈ leafNames t ∧ r.sister ∈ leafNames t ∧
        r.outgroup ∈ leafNames t) ∧
    removeFirstUnderscore "A_in_gene1" = "Ain_gene1" := by
  refine ⟨?_, ?_, rfl⟩
  · unfold dataOf
    have hrel := collectRows_relabel ogid ingP sisP outgP (leavesCtx t []) [] none
    rw [show (([] : List Row).map relabelRow) = [] from rfl] at hrel
    rw [hrel]
    cases collectRows ogid ingP sisP outgP false (leavesCtx t []) [] none with
    | error e => rfl
    | ok p => rfl
  · intro data hdata r hr
    obtain ⟨leaf, hleaf, rows, st0, st1, hpl, hrow⟩ := dataOf_mem hdata hr
    obtain ⟨-, s, o, -, hsmem, -, homem, hreq⟩ := processLeaf_row_mem hpl hrow
    rw [if_neg (by simp)] at hreq
    have hnames := leavesCtx_names t [] (show (leaf.1, leaf.2) ∈ _ from hleaf)
    have hframes : ∀ x ∈ framesNames leaf.2, x ∈ leafNames t := by
      intro x hx
      rcases hnames.2 x hx with h' | h'
      · exact h'
      · exact absurd h' (List.not_mem_nil x)
    rw [hreq]
    exact ⟨hnames.1, hframes s hsmem, hframes o homem⟩

/-- Witness for C6 at the single data row for `((A_in1,C_sis1),G_out1);`. -/
theorem C6_witness :
    "A_in1" ∈ leafNames treePair ∧ "C_sis1" ∈ leafNames treePair ∧
      "G_out1" ∈ leafNames treePair :=
  (C6_relabel_removes_first_underscore "OG" treePair "A_in" "C_sis" "G_out").2.1
    [⟨"OG", "A_in1", "C_sis1", "G_out1"⟩] rfl
    ⟨"OG", "A_in1", "C_sis1", "G_out1"⟩ (List.mem_singleton.mpr rfl)

/-! ## Sortedness and indexing of the table -/

/-- C4: any table returned by the extraction is sorted ascending by the
lexicographic key (sister, outgroup, ingroup) and its row indices are exactly
0, 1, ..., n-1. -/
theorem C4_table_sorted_and_reindexed
    (ogid : String) (t : PTree) (ingP sisP outgP : String) (relabel : Bool)
    (tbl : List TRow)
    (h : get_combinatorial_triplets ogid t ingP sisP outgP relabel =
      .ok (some tbl)) :
    tbl.Pairwise tabLeP ∧ tbl.map (fun r => r.idx) = List.range tbl.length := by
  obtain ⟨data, -, -, htbl⟩ := get_ok_table h
  subst htbl
  unfold buildTable
  constructor
  · haveI : IsTotal GRow gLeP := ⟨fun a b => keyLeP_total _ _⟩
    haveI : IsTrans GRow gLeP := ⟨fun _ _ _ => keyLeP_trans⟩
    have hs : (List.insertionSort gLeP (attachIds data)).Pairwise gLeP :=
      List.sorted_insertionSort gLeP (attachIds data)
    have hs2 : ((List.insertionSort gLeP (attachIds data)).enum.map
        Prod.snd).Pairwise gLeP := by
      rw [List.enum_map_snd]; exact hs
    rw [List.pairwise_map] at hs2
    rw [List.pairwise_map]
    exact hs2
  · rw [List.map_map]
    have hcomp : ((fun r : TRow => r.idx) ∘ fun p : Nat × GRow =>
        (⟨p.1, p.2.og, p.2.ingroup, p.2.sister, p.2.outgroup,
          p.2.same_sister, p.2.same_sister_and_og⟩ : TRow)) = Prod.fst := rfl
    rw [hcomp, List.enum_map_fst, List.length_map, List.enum_length]

/-- Witness for C4 on the concrete tree `((A_in1,C_sis1),G_out1);`. -/
theorem C4_witness :
    ([(⟨0, "OG", "A_in1", "C_sis1", "G_out1", 0, 0⟩ : TRow)].Pairwise tabLeP) ∧
    [(⟨0, "OG", "A_in1", "C_sis1", "G_out1", 0, 0⟩ : TRow)].map (fun r => r.idx) =
      List.range 1 :=
  C4_table_sorted_and_reindexed "OG" treePair "A_in" "C_sis" "G_out" false
    [⟨0, "OG", "A_in1", "C_sis1", "G_out1", 0, 0⟩] rfl

/-! ## Group ids in the table -/

theorem mem_table_ids {data : List Row} {r : TRow} (h : r ∈ buildTable data) :
    ∃ r0 ∈ data, r.sister = r0.sister ∧ r.outgroup = r0.outgroup ∧
      r.same_sister = groupId (data.map fun x => [x.sister]) [r0.sister] ∧
      r.same_sister_and_og =
        groupId (data.map fun x => [x.sister, x.outgroup])
          [r0.sister, r0.outgroup] := by
  obtain ⟨g, hg, -, -, hs, ho, hss, hsso⟩ := mem_buildTable h
  obtain ⟨r0, hr0, hgr⟩ := mem_attachIds hg
  refine ⟨r0, hr0, ?_, ?_, ?_, ?_⟩
  · rw [hs, hgr]
  · rw [ho, hgr]
  · rw [hss, hgr]
  · rw [hsso, hgr]

theorem keyLt_singleton (s t : String) : keyLt [s] [t] = strLt s t := by
  cases h : strLt s t <;> simp [keyLt, lexLt, h]

theorem map_groupId_toFinset (keys : List (List String)) :
    (keys.map (groupId keys)).toFinset = Finset.range keys.dedup.length := by
  ext i
  simp only [List.mem_toFinset, List.mem_map, Finset.mem_range]
  constructor
  · rintro ⟨k, hk, rfl⟩
    exact groupId_lt hk
  · intro hi
    exact groupId_surj hi

theorem list_toFinset_map {α β : Type} [DecidableEq α] [DecidableEq β]
    (f : α → β) (l : List α) : (l.map f).toFinset = l.toFinset.image f := by
  ext b
  simp

theorem buildTable_map_perm {α : Type} (data : List Row) (g : TRow → α)
    (g' : GRow → α)
    (hcomp : (g ∘ fun p : Nat × GRow =>
        (⟨p.1, p.2.og, p.2.ingroup, p.2.sister, p.2.outgroup,
          p.2.same_sister, p.2.same_sister_and_og⟩ : TRow)) = g' ∘ Prod.snd) :
    List.Perm ((buildTable data).map g) ((attachIds data).map g') := by
  unfold buildTable
  rw [List.map_map, hcomp, ← List.map_map, List.enum_map_snd]
  exact (List.perm_insertionSort gLeP (attachIds data)).map g'

/-- C5: in any returned table, two rows carry the same `same_sister` id
exactly when their sister names agree, and the same `same_sister_and_og` id
exactly when both their sister and outgroup names agree. -/
theorem C5_group_ids_match_names
    (ogid : String) (t : PTree) (ingP sisP outgP : String) (relabel : Bool)
    (tbl : List TRow)
    (h : get_combinatorial_triplets ogid t ingP sisP outgP relabel =
      .ok (some tbl)) :
    ∀ r1 ∈ tbl, ∀ r2 ∈ tbl,
      (r1.same_sister = r2.same_sister ↔ r1.sister = r2.sister) ∧
      (r1.same_sister_and_og = r2.same_sister_and_og ↔
        (r1.sister = r2.sister ∧ r1.outgroup = r2.outgroup)) := by
  obtain ⟨data, -, -, htbl⟩ := get_ok_table h
  subst htbl
  intro r1 h1 r2 h2
  obtain ⟨r01, hr01, hs1, ho1, hss1, hsso1⟩ := mem_table_ids h1
  obtain ⟨r02, hr02, hs2, ho2, hss2, hsso2⟩ := mem_table_ids h2
  have hm1 : [r01.sister] ∈ data.map (fun x => [x.sister]) :=
    List.mem_map_of_mem _ hr01
  have hm2 : [r02.sister] ∈ data.map (fun x => [x.sister]) :=
    List.mem_map_of_mem _ hr02
  have hp1 : [r01.sister, r01.outgroup] ∈
      data.map (fun x => [x.sister, x.outgroup]) := List.mem_map_of_mem _ hr01
  have hp2 : [r02.sister, r02.outgroup] ∈
      data.map (fun x => [x.sister, x.outgroup]) := List.mem_map_of_mem _ hr02
  constructor
  · rw [hss1, hss2, hs1, hs2, groupId_inj hm1 hm2]
    simp
  · rw [hsso1, hsso2, hs1, hs2, ho1, ho2, groupId_inj hp1 hp2]
    simp

/-- Witness for C5 at the single row of the table for `((A_in1,C_sis1),G_out1);`. -/
theorem C5_witness :
    ((0 : Nat) = 0 ↔ "C_sis1" = "C_sis1") ∧
    ((0 : Nat) = 0 ↔ ("C_sis1" = "C_sis1" ∧ "G_out1" = "G_out1")) :=
  C5_group_ids_match_names "OG" treePair "A_in" "C_sis" "G_out" false
    [⟨0, "OG", "A_in1", "C_sis1", "G_out1", 0, 0⟩] rfl
    ⟨0, "OG", "A_in1", "C_sis1", "G_out1", 0, 0⟩ (List.mem_singleton.mpr rfl)
    ⟨0, "OG", "A_in1", "C_sis1", "G_out1", 0, 0⟩ (List.mem_singleton.mpr rfl)

/-- C10: in any returned table, the `same_sister` ids are exactly
0..d-1 for d the number of distinct sister names, assigned in ascending
order of sister name; likewise the `same_sister_and_og` ids are exactly
0..k-1 for k the number of distinct (sister, outgroup) pairs, in ascending
order of the pair. -/
theorem C10_group_ids_are_ascending_ranks
    (ogid : String) (t : PTree) (ingP sisP outgP : String) (relabel : Bool)
    (tbl : List TRow)
    (h : get_combinatorial_triplets ogid t ingP sisP outgP relabel =
      .ok (some tbl)) :
    ((tbl.map fun r => r.same_sister).toFinset =
      Finset.range ((tbl.map fun r => r.sister).toFinset.card)) ∧
    ((tbl.map fun r => r.same_sister_and_og).toFinset =
      Finset.range ((tbl.map fun r => [r.sister, r.outgroup]).toFinset.card)) ∧
    (∀ r1 ∈ tbl, ∀ r2 ∈ tbl,
      (strLt r1.sister r2.sister = true → r1.same_sister < r2.same_sister) ∧
      (keyLt [r1.sister, r1.outgroup] [r2.sister, r2.outgroup] = true →
        r1.same_sister_and_og < r2.same_sister_and_og)) := by
  obtain ⟨data, -, -, htbl⟩ := get_ok_table h
  subst htbl
  refine ⟨?_, ?_, ?_⟩
  · have hperm : List.Perm ((buildTable data).map fun r => r.same_sister)
        ((attachIds data).map fun g => g.same_sister) :=
      buildTable_map_perm data _ _ rfl
    have heq : (attachIds data).map (fun g => g.same_sister) =
        (data.map fun x => [x.sister]).map
          (groupId (data.map fun x => [x.sister])) := by
      unfold attachIds
      rw [List.map_map, List.map_map]
      rfl
    have hperm2 : List.Perm ((buildTable data).map fun r => r.sister)
        ((attachIds data).map fun g => g.sister) :=
      buildTable_map_perm data _ _ rfl
    have heq2 : (attachIds data).map (fun g => g.sister) =
        data.map fun x => x.sister := by
      unfold attachIds
      rw [List.map_map]
      rfl
    rw [List.toFinset_eq_of_perm _ _ hperm, heq, map_groupId_toFinset,
      List.toFinset_eq_of_perm _ _ hperm2, heq2]
    congr 1
    rw [← List.card_toFinset]
    have hwrap : (data.map fun x => [x.sister]) =
        (data.map fun x => x.sister).map (fun s => [s]) := by
      rw [List.map_map]
      rfl
    rw [hwrap, list_toFinset_map,
      Finset.card_image_of_injective _ (fun a b hab => by simpa using hab)]
  · have hperm : List.Perm
        ((buildTable data).map fun r => r.same_sister_and_og)
        ((attachIds data).map fun g => g.same_sister_and_og) :=
      buildTable_map_perm data _ _ rfl
    have heq : (attachIds data).map (fun g => g.same_sister_and_og) =
        (data.map fun x => [x.sister, x.outgroup]).map
          (groupId (data.map fun x => [x.sister, x.outgroup])) := by
      unfold attachIds
      rw [List.map_map, List.map_map]
      rfl
    have hperm2 : List.Perm
        ((buildTable data).map fun r => [r.sister, r.outgroup])
        ((attachIds data).map fun g => [g.sister, g.outgroup]) :=
      buildTable_map_perm data _ _ rfl
    have heq2 : (attachIds data).map (fun g => [g.sister, g.outgroup]) =
        data.map fun x => [x.sister, x.outgroup] := by
      unfold attachIds
      rw [List.map_map]
      rfl
    rw [List.toFinset_eq_of_perm _ _ hperm, heq, map_groupId_toFinset,
      List.toFinset_eq_of_perm _ _ hperm2, heq2, List.card_toFinset]
  · intro r1 h1 r2 h2
    obtain ⟨r01, hr01, hs1, ho1, hss1, hsso1⟩ := mem_table_ids h1
    obtain ⟨r02, hr02, hs2, ho2, hss2, hsso2⟩ := mem_table_ids h2
    have hm1 : [r01.sister] ∈ data.map (fun x => [x.sister]) :=
      List.mem_map_of_mem _ hr01
    have hm2 : [r02.sister] ∈ data.map (fun x => [x.sister]) :=
      List.mem_map_of_mem _ hr02
    have hp1 : [r01.sister, r01.outgroup] ∈
        data.map (fun x => [x.sister, x.outgroup]) := List.mem_map_of_mem _ hr01
    have hp2 : [r02.sister, r02.outgroup] ∈
        data.map (fun x => [x.sister, x.outgroup]) := List.mem_map_of_mem _ hr02
    constructor
    · intro hlt
      rw [hss1, hss2]
      refine groupId_mono hm1 hm2 ?_
      rw [keyLt_singleton, ← hs1, ← hs2]
      exact hlt
    · intro hlt
      rw [hsso1, hsso2]
      refine groupId_mono hp1 hp2 ?_
      rw [← hs1, ← hs2, ← ho1, ← ho2]
      exact hlt

/-- Witness for C10 on the tree `((A_in1,(C_sis2,C_sis1)),(G_out2,G_out1));`,
whose table has two distinct sister names and four (sister, outgroup) pairs. -/
theorem C10_witness :
    (([(⟨0, "OG", "A_in1", "C_sis1", "G_out1", 0, 0⟩ : TRow),
       ⟨1, "OG", "A_in1", "C_sis1", "G_out2", 0, 1⟩,
       ⟨2, "OG", "A_in1", "C_sis2", "G_out1", 1, 2⟩,
       ⟨3, "OG", "A_in1", "C_sis2", "G_out2", 1, 3⟩].map
        fun r => r.same_sister).toFinset =
      Finset.range (([(⟨0, "OG", "A_in1", "C_sis1", "G_out1", 0, 0⟩ : TRow),
       ⟨1, "OG", "A_in1", "C_sis1", "G_out2", 0, 1⟩,
       ⟨2, "OG", "A_in1", "C_sis2", "G_out1", 1, 2⟩,
       ⟨3, "OG", "A_in1", "C_sis2", "G_out2", 1, 3⟩].map
        fun r => r.sister).toFinset.card)) ∧
    (([(⟨0, "OG", "A_in1", "C_sis1", "G_out1", 0, 0⟩ : TRow),
       ⟨1, "OG", "A_in1", "C_sis1", "G_out2", 0, 1⟩,
       ⟨2, "OG", "A_in1", "C_sis2", "G_out1", 1, 2⟩,
       ⟨3, "OG", "A_in1", "C_sis2", "G_out2", 1, 3⟩].map
        fun r => r.same_sister_and_og).toFinset =
      Finset.range (([(⟨0, "OG", "A_in1", "C_sis1", "G_out1", 0, 0⟩ : TRow),
       ⟨1, "OG", "A_in1", "C_sis1", "G_out2", 0, 1⟩,
       ⟨2, "OG", "A_in1", "C_sis2", "G_out1", 1, 2⟩,
       ⟨3, "OG", "A_in1", "C_sis2", "G_out2", 1, 3⟩].map
        fun r => [r.sister, r.outgroup]).toFinset.card)) ∧
    ((0 : Nat) < 1 ∧ (0 : Nat) < 2) := by
  have H := C10_group_ids_are_ascending_ranks "OG"
    (.node "" [.node "" [tleaf "A_in1", .node "" [tleaf "C_sis2", tleaf "C_sis1"]],
      .node "" [tleaf "G_out2", tleaf "G_out1"]])
    "A_in" "C_sis" "G_out" false
    [⟨0, "OG", "A_in1", "C_sis1", "G_out1", 0, 0⟩,
     ⟨1, "OG", "A_in1", "C_sis1", "G_out2", 0, 1⟩,
     ⟨2, "OG", "A_in1", "C_sis2", "G_out1", 1, 2⟩,
     ⟨3, "OG", "A_in1", "C_sis2", "G_out2", 1, 3⟩] rfl
  refine ⟨H.1, H.2.1, ?_, ?_⟩
  · exact (H.2.2 ⟨0, "OG", "A_in1", "C_sis1", "G_out1", 0, 0⟩ (by decide)
      ⟨2, "OG", "A_in1", "C_sis2", "G_out1", 1, 2⟩ (by decide)).1 rfl
  · exact (H.2.2 ⟨0, "OG", "A_in1", "C_sis1", "G_out1", 0, 0⟩ (by decide)
      ⟨2, "OG", "A_in1", "C_sis2", "G_out1", 1, 2⟩ (by decide)).2 rfl
